import Mathlib

/-!
# Verification of the backtester core

A shallow embedding, in Lean 4, of the single-asset backtesting library:
the `Broker` ledger (src/backtester/broker.py), the
`VolatilityBreakoutStrategy` signal generator (src/backtester/strategy.py)
and the `Backtester` simulation engine (src/backtester/engine.py).

Modelling conventions:
* Python floats are modelled as exact rationals (`Rat`); prices are
  in-domain when strictly positive, matching the input contract.
* A pandas `Series` is modelled positionally: a series of length `n` is a
  function from indices to values, materialised as a `List` of length `n`.
  A `NaN` entry is `Option.none`, and pandas' NaN-propagating arithmetic
  and NaN-comparisons-are-false semantics are made explicit.
* `pandas.Series.std` computes `sqrt` of the sample variance (`ddof = 1`);
  the square root leaves ℚ, so it is abstracted as an explicit function
  argument `sqrtFn : Rat → Rat`.  None of the verified properties depend
  on its value except that `sqrt 0 = 0`, which is taken as a hypothesis
  where needed.
* Python exceptions are modelled with `Except`; a raise happens in the
  source before any state mutation, so the purely functional error result
  carries no partial state.
-/

/-- One entry of the broker's `trade_log`: the dict appended by
`Broker.market_order`, snapshotting post-trade cash and position. -/
structure TradeRecord where
  side : String
  qty : Int
  price : Rat
  cash : Rat
  position : Int
  deriving Repr, DecidableEq

/-- The `ValueError`s raised by `Broker.market_order`. -/
inductive OrderError where
  /-- "Quantity must be positive." -/
  | invalidQty
  /-- "Price must be positive." -/
  | invalidPrice
  deriving Repr, DecidableEq

/-- The ledger: `class Broker` of src/backtester/broker.py. -/
structure Broker where
  cash : Rat
  position : Int
  trade_log : List TradeRecord
  deriving Repr, DecidableEq

/-- `Broker.__init__`: starting cash, zero position, empty trade log. -/
def Broker.init (cash : Rat) : Broker := ⟨cash, 0, []⟩

/-- Python `str.lower()`: per-character lower-casing (the sides in play
are ASCII). -/
def strLower (s : String) : String := ⟨s.data.map Char.toLower⟩

/-- `Broker.market_order`.  Raises for non-positive quantity or price;
buys or sells according to the lower-cased side; for any other side the
cash and position are left unchanged; in all non-raising cases a trade
record snapshotting the post-trade state is appended. -/
def Broker.market_order (b : Broker) (side : String) (qty : Int) (price : Rat) :
    Except OrderError Broker :=
  if qty ≤ 0 then .error .invalidQty
  else if price ≤ 0 then .error .invalidPrice
  else
    let b1 :=
      if strLower side = "buy" then
        { b with cash := b.cash - qty * price, position := b.position + qty }
      else if strLower side = "sell" then
        { b with cash := b.cash + qty * price, position := b.position - qty }
      else b
    .ok { b1 with trade_log := b1.trade_log ++ [⟨side, qty, price, b1.cash, b1.position⟩] }

/-- `Broker.total_value`: cash plus mark-to-market position value. -/
def Broker.total_value (b : Broker) (current_price : Rat) : Rat :=
  b.cash + b.position * current_price

/-- The `InvalidConfiguration` error named by the spec's error taxonomy. -/
inductive ConfigError where
  | invalidConfiguration
  deriving Repr, DecidableEq

/-- `class VolatilityBreakoutStrategy` of src/backtester/strategy.py:
its five configuration fields, as cast and stored by `__init__`. -/
structure VolatilityBreakoutStrategy where
  lookback : Int
  k : Rat
  hold : Bool
  lag_signal : Int
  long_only : Bool
  deriving Repr, DecidableEq

/-- `VolatilityBreakoutStrategy.__init__`: stores the cast parameters.
The source performs no domain validation, so construction always
succeeds; the `Except` wrapper records the absence of a construction-time
error. -/
def VolatilityBreakoutStrategy.init (lookback : Int) (k : Rat) (hold : Bool)
    (lag_signal : Int) (long_only : Bool) :
    Except ConfigError VolatilityBreakoutStrategy :=
  .ok ⟨lookback, k, hold, lag_signal, long_only⟩

/-- `prices.shift(1)` evaluated at index `t`: the previous close,
`NaN` (`none`) at index 0. -/
def prevClose (p : ℕ → Rat) (t : ℕ) : Option Rat :=
  if t = 0 then none else some (p (t - 1))

/-- `prices.pct_change()` evaluated at index `t`: the simple return
`p t / p (t-1) - 1`, `NaN` (`none`) at index 0. -/
def pctChange (p : ℕ → Rat) (t : ℕ) : Option Rat :=
  if t = 0 then none else some (p t / p (t - 1) - 1)

/-- Sample standard deviation as computed by `pandas.Series.std`
(`ddof = 1`): `NaN` (`none`) on fewer than two observations, otherwise
the square root (abstracted as `sqrtFn`) of the sample variance. -/
def sampleStd (sqrtFn : Rat → Rat) (xs : List Rat) : Option Rat :=
  if xs.length ≤ 1 then none
  else
    some (sqrtFn
      ((xs.map (fun x => (x - xs.sum / (xs.length : Rat)) ^ 2)).sum /
        ((xs.length : Rat) - 1)))

/-- `x.rolling(w, min_periods=w).std()` evaluated at index `t`: the
window is the `w` entries ending at `t`; `NaN` (`none`) unless the window
fits within the series start and contains no `NaN`. -/
def rollingStd (sqrtFn : Rat → Rat) (w : ℕ) (x : ℕ → Option Rat) (t : ℕ) :
    Option Rat :=
  if w ≤ t + 1 then
    let window := (List.range w).map (fun j => x (t + 1 - w + j))
    if window.all Option.isSome then
      sampleStd sqrtFn (window.map (fun o => o.getD 0))
    else none
  else none

/-- `vol = rets.rolling(lookback, min_periods=lookback).std().shift(1)`
evaluated at index `t`. -/
def vol (sqrtFn : Rat → Rat) (s : VolatilityBreakoutStrategy) (p : ℕ → Rat)
    (t : ℕ) : Option Rat :=
  if t = 0 then none
  else rollingStd sqrtFn s.lookback.toNat (pctChange p) (t - 1)

/-- `up_band = prev_close * (1 + k * vol)` with NaN propagation. -/
def upBand (sqrtFn : Rat → Rat) (s : VolatilityBreakoutStrategy) (p : ℕ → Rat)
    (t : ℕ) : Option Rat :=
  match prevClose p t, vol sqrtFn s p t with
  | some pc, some v => some (pc * (1 + s.k * v))
  | _, _ => none

/-- `dn_band = prev_close * (1 - k * vol)` with NaN propagation. -/
def dnBand (sqrtFn : Rat → Rat) (s : VolatilityBreakoutStrategy) (p : ℕ → Rat)
    (t : ℕ) : Option Rat :=
  match prevClose p t, vol sqrtFn s p t with
  | some pc, some v => some (pc * (1 - s.k * v))
  | _, _ => none

/-- `a > o` on a possibly-NaN right operand: false against NaN. -/
def gtOpt (a : Rat) (o : Option Rat) : Bool :=
  match o with
  | some b => decide (b < a)
  | none => false

/-- `a < o` on a possibly-NaN right operand: false against NaN. -/
def ltOpt (a : Rat) (o : Option Rat) : Bool :=
  match o with
  | some b => decide (a < b)
  | none => false

/-- The raw signal at index `t`: 1 above the upper band, −1 below the
lower band when `long_only` is off, else 0.  In the source the −1
assignment runs after the 1 assignment, so it wins where both fire. -/
def raw (sqrtFn : Rat → Rat) (s : VolatilityBreakoutStrategy) (p : ℕ → Rat)
    (t : ℕ) : Rat :=
  if !s.long_only && ltOpt (p t) (dnBand sqrtFn s p t) then -1
  else if gtOpt (p t) (upBand sqrtFn s p t) then 1
  else 0

/-- `r.replace(0, nan).ffill().fillna(0)` evaluated at index `t`: the
last non-zero value of `r` at or before `t`, 0 if there is none. -/
def ffillNonzero (r : ℕ → Rat) : ℕ → Rat
  | 0 => r 0
  | t + 1 => if r (t + 1) = 0 then ffillNonzero r t else r (t + 1)

/-- The pre-lag signal: forward-filled raw signal in hold mode, the raw
signal itself otherwise. -/
def sigPre (sqrtFn : Rat → Rat) (s : VolatilityBreakoutStrategy) (p : ℕ → Rat)
    (t : ℕ) : Rat :=
  if s.hold then ffillNonzero (raw sqrtFn s p) t else raw sqrtFn s p t

/-- The signal at index `t` after the lag: `sig.shift(lag).fillna(0)`
when `lag_signal > 0`, the pre-lag signal otherwise. -/
def sigF (sqrtFn : Rat → Rat) (s : VolatilityBreakoutStrategy) (p : ℕ → Rat)
    (t : ℕ) : Rat :=
  if 0 < s.lag_signal then
    if (t : Int) < s.lag_signal then 0
    else sigPre sqrtFn s p (t - s.lag_signal.toNat)
  else sigPre sqrtFn s p t

/-- `VolatilityBreakoutStrategy.signals`: the full dataflow pipeline of
the source, materialised over the indices of the input price list. -/
def VolatilityBreakoutStrategy.signals (s : VolatilityBreakoutStrategy)
    (sqrtFn : Rat → Rat) (prices : List Rat) : List Rat :=
  List.ofFn (fun i : Fin prices.length =>
    sigF sqrtFn s (fun j => prices.getD j 0) i.val)

/-- The dict returned by `Backtester.run`: equity curve, normalized
signal series, and the trades drawn from the broker's trade log. -/
structure RunResult where
  equity : List Rat
  signals : List Rat
  trades : List TradeRecord
  deriving Repr, DecidableEq

/-- `sig.clip(lower=0, upper=1)` on one value. -/
def clip01 (x : Rat) : Rat := max 0 (min 1 x)

/-- The per-step loop of `Backtester.run`, over `(price, signal)` pairs,
threading the previous signal and the broker; returns the equity values
and the final broker, or propagates the first order error. -/
def runLoop (b : Broker) (prev : Rat) :
    List (Rat × Rat) → Except OrderError (List Rat × Broker)
  | [] => .ok ([], b)
  | (px, cur) :: rest =>
    let step : Except OrderError Broker :=
      if prev ≤ 0 ∧ 0 < cur then
        let qty : Int := ⌊b.cash / px⌋
        if 0 < qty then b.market_order "buy" qty px else .ok b
      else if 0 < prev ∧ cur ≤ 0 then
        if 0 < b.position then b.market_order "sell" b.position px else .ok b
      else .ok b
    match step with
    | .error e => .error e
    | .ok b1 =>
      match runLoop b1 cur rest with
      | .error e => .error e
      | .ok (eqs, bf) => .ok (b1.total_value px :: eqs, bf)

/-- `class Backtester`: a strategy and the broker it drives. -/
structure Backtester where
  strategy : VolatilityBreakoutStrategy
  broker : Broker

/-- `Backtester.run`: normalize the strategy's signals (`fillna(0)` is a
no-op on the total embedding, then clip to [0, 1]), drive the loop with
`prev_sig = 0`, and package the equity curve, normalized signals, and
trade log.  Also returns the final broker state. -/
def Backtester.run (bt : Backtester) (sqrtFn : Rat → Rat)
    (prices : List Rat) : Except OrderError (RunResult × Broker) :=
  let sig := (bt.strategy.signals sqrtFn prices).map clip01
  match runLoop bt.broker 0 (prices.zip sig) with
  | .error e => .error e
  | .ok (eqs, bf) => .ok (⟨eqs, sig, bf.trade_log⟩, bf)

/-! ## Basic evaluation lemmas for the broker -/

theorem strLower_buy : strLower "buy" = "buy" := by decide

theorem strLower_sell : strLower "sell" = "sell" := by decide

theorem strLower_hold : strLower "hold" = "hold" := by decide

/-- Evaluating `market_order` on a valid buy. -/
theorem market_order_buy_eq (b : Broker) (qty : Int) (price : Rat)
    (hq : 0 < qty) (hp : 0 < price) :
    b.market_order "buy" qty price =
      .ok ⟨b.cash - qty * price, b.position + qty,
        b.trade_log ++ [⟨"buy", qty, price, b.cash - qty * price, b.position + qty⟩]⟩ := by
  have h1 : ¬ qty ≤ 0 := by omega
  have h2 : ¬ price ≤ 0 := not_le.mpr hp
  simp [Broker.market_order, h1, h2, strLower_buy]

/-- Evaluating `market_order` on a valid sell. -/
theorem market_order_sell_eq (b : Broker) (qty : Int) (price : Rat)
    (hq : 0 < qty) (hp : 0 < price) :
    b.market_order "sell" qty price =
      .ok ⟨b.cash + qty * price, b.position - qty,
        b.trade_log ++ [⟨"sell", qty, price, b.cash + qty * price, b.position - qty⟩]⟩ := by
  have h1 : ¬ qty ≤ 0 := by omega
  have h2 : ¬ price ≤ 0 := not_le.mpr hp
  simp [Broker.market_order, h1, h2, strLower_sell]

/-- A valid order (positive quantity and price) never errors, whatever
the side string is. -/
theorem market_order_isOk (b : Broker) (side : String) (qty : Int) (price : Rat)
    (hq : 0 < qty) (hp : 0 < price) :
    ∃ b1 : Broker, b.market_order side qty price = .ok b1 := by
  have h1 : ¬ qty ≤ 0 := by omega
  have h2 : ¬ price ≤ 0 := not_le.mpr hp
  simp only [Broker.market_order, h1, h2, if_false]
  exact ⟨_, rfl⟩

/-! ## C1 -/

/-- C1 counterexample: an order with an unrecognized side ("hold"),
positive quantity and positive price does NOT raise: it returns
successfully, and it appends a trade record (cash and position
unchanged), contradicting the claim that such an order raises
InvalidOrder with the trade history left unchanged. -/
theorem market_order_unrecognized_side_cex :
    Broker.market_order (Broker.init 1000) "hold" 1 10 =
      .ok ⟨1000, 0, [⟨"hold", 1, 10, 1000, 0⟩]⟩ := by
  have h1 : ("hold" : String) ≠ "buy" := by decide
  have h2 : ("hold" : String) ≠ "sell" := by decide
  norm_num [Broker.market_order, Broker.init, strLower_hold, h1, h2]

/-- C1 (amended): `market_order` errors exactly when the quantity or the
price is non-positive, whatever the side; the error is returned before
any state change, so the ledger is untouched.  For positive quantity and
price no error is raised even for an unrecognized side; in that case
cash and position are unchanged but a trade record is still appended. -/
theorem market_order_error_iff (b : Broker) (side : String) (qty : Int)
    (price : Rat) :
    ((b.market_order side qty price).isOk = false ↔ qty ≤ 0 ∨ price ≤ 0)
    ∧ (0 < qty → 0 < price → strLower side ≠ "buy" → strLower side ≠ "sell" →
        b.market_order side qty price =
          .ok { b with trade_log :=
            b.trade_log ++ [⟨side, qty, price, b.cash, b.position⟩] }) := by
  constructor
  · constructor
    · intro h
      by_contra hc
      push_neg at hc
      obtain ⟨hq, hp⟩ := hc
      obtain ⟨b1, hb1⟩ := market_order_isOk b side qty price (by omega) hp
      rw [hb1] at h
      simp [Except.isOk, Except.toBool] at h
    · intro h
      rcases h with h | h
      · simp [Broker.market_order, h, Except.isOk, Except.toBool]
      · by_cases hq : qty ≤ 0
        · simp [Broker.market_order, hq, Except.isOk, Except.toBool]
        · simp [Broker.market_order, hq, h, Except.isOk, Except.toBool]
  · intro hq hp hb hs
    have h1 : ¬ qty ≤ 0 := by omega
    have h2 : ¬ price ≤ 0 := not_le.mpr hp
    simp [Broker.market_order, h1, h2, hb, hs]

/-- C1 witness: at quantity 0 the order errors, and at an unrecognized
side with positive quantity and price it succeeds, appending exactly one
record to an empty log. -/
theorem market_order_error_iff_witness :
    (Broker.market_order (Broker.init 1000) "buy" 0 10).isOk = false
    ∧ Broker.market_order (Broker.init 500) "exit" 2 5 =
        .ok { Broker.init 500 with trade_log := [⟨"exit", 2, 5, 500, 0⟩] } := by
  constructor
  · exact (market_order_error_iff (Broker.init 1000) "buy" 0 10).1.mpr
      (Or.inl (by norm_num))
  · have h := (market_order_error_iff (Broker.init 500) "exit" 2 5).2
      (by norm_num) (by norm_num) (by decide) (by decide)
    simpa [Broker.init] using h

/-! ## C8 -/

/-- C8 counterexample: construction with a negative lookback (and also
with negative k or negative lagSteps) succeeds — no InvalidConfiguration
is raised at construction time. -/
theorem init_no_validation_cex :
    VolatilityBreakoutStrategy.init (-1) (3/2) true 1 true =
      .ok ⟨-1, 3/2, true, 1, true⟩
    ∧ VolatilityBreakoutStrategy.init 20 (-3/2) true 1 true =
      .ok ⟨20, -3/2, true, 1, true⟩
    ∧ VolatilityBreakoutStrategy.init 20 (3/2) true (-1) true =
      .ok ⟨20, 3/2, true, -1, true⟩ :=
  ⟨rfl, rfl, rfl⟩

/-- C8 (amended): the constructor performs no domain validation at all:
for every parameter combination, including negative lookback, k, or
lagSteps, construction succeeds and merely stores the parameters. -/
theorem init_never_fails (lookback : Int) (k : Rat) (hold : Bool)
    (lag_signal : Int) (long_only : Bool) :
    VolatilityBreakoutStrategy.init lookback k hold lag_signal long_only =
      .ok ⟨lookback, k, hold, lag_signal, long_only⟩ := rfl

/-! ## C2 -/

/-- C2: entry sizing law.  At an entry transition (previous exposure ≤ 0,
current exposure > 0) with a positive price, the engine buys exactly
`⌊cash / price⌋` shares whenever that quantity is positive — post-trade
cash is the pre-trade cash minus quantity·price, and the recorded trade
carries that quantity — and when `⌊cash / price⌋ ≤ 0` the step performs
no trade and raises no error. -/
theorem entry_sizing (b : Broker) (prev cur px : Rat) (rest : List (Rat × Rat))
    (hprev : prev ≤ 0) (hcur : 0 < cur) (hpx : 0 < px) :
    (0 < ⌊b.cash / px⌋ →
      ∃ b1 : Broker,
        b.market_order "buy" ⌊b.cash / px⌋ px = .ok b1
        ∧ b1.cash = b.cash - ⌊b.cash / px⌋ * px
        ∧ b1.position = b.position + ⌊b.cash / px⌋
        ∧ b1.trade_log = b.trade_log ++
            [⟨"buy", ⌊b.cash / px⌋, px, b1.cash, b1.position⟩]
        ∧ runLoop b prev ((px, cur) :: rest) =
            (runLoop b1 cur rest).map (fun r => (b1.total_value px :: r.1, r.2)))
    ∧ (⌊b.cash / px⌋ ≤ 0 →
        runLoop b prev ((px, cur) :: rest) =
          (runLoop b cur rest).map (fun r => (b.total_value px :: r.1, r.2))) := by
  constructor
  · intro hq
    refine ⟨_, market_order_buy_eq b ⌊b.cash / px⌋ px hq hpx, rfl, rfl, rfl, ?_⟩
    simp only [runLoop, if_pos (And.intro hprev hcur), if_pos hq,
      market_order_buy_eq b ⌊b.cash / px⌋ px hq hpx]
    cases runLoop ⟨b.cash - ⌊b.cash / px⌋ * px, b.position + ⌊b.cash / px⌋,
        b.trade_log ++ [⟨"buy", ⌊b.cash / px⌋, px, b.cash - ⌊b.cash / px⌋ * px,
          b.position + ⌊b.cash / px⌋⟩]⟩ cur rest with
    | error e => rfl
    | ok r => rfl
  · intro hq
    simp only [runLoop, if_pos (And.intro hprev hcur), if_neg (not_lt.mpr hq)]
    cases runLoop b cur rest with
    | error e => rfl
    | ok r => rfl

/-- C2 witness: with cash 1000 and price 30 the bought quantity is
`⌊1000/30⌋ = 33` and post-trade cash is 10; and with cash 10 and price
100 no trade happens (`⌊10/100⌋ = 0`) and no error is raised. -/
theorem entry_sizing_witness :
    (⌊(1000 : Rat) / 30⌋ = 33
      ∧ ∃ b1 : Broker, (Broker.init 1000).market_order "buy" 33 30 = .ok b1
          ∧ b1.cash = 10 ∧ b1.position = 33)
    ∧ (⌊(10 : Rat) / 100⌋ = 0
      ∧ runLoop (Broker.init 10) 0 [(100, 1)] =
          .ok ([10], Broker.init 10)) := by
  have h33 : ⌊(1000 : Rat) / 30⌋ = 33 := by
    rw [Int.floor_eq_iff]
    norm_num
  have h0 : ⌊(10 : Rat) / 100⌋ = 0 := by
    rw [Int.floor_eq_iff]
    norm_num
  constructor
  · refine ⟨h33, ?_⟩
    have h := (entry_sizing (Broker.init 1000) 0 1 30 []
      (le_refl 0) (by norm_num) (by norm_num)).1
    rw [show (Broker.init 1000).cash = 1000 from rfl, h33] at h
    obtain ⟨b1, hok, hcash, hpos, _, _⟩ := h (by norm_num)
    exact ⟨b1, hok, by rw [hcash]; norm_num, by rw [hpos]; rfl⟩
  · refine ⟨h0, ?_⟩
    have h := (entry_sizing (Broker.init 10) 0 1 100 []
      (le_refl 0) (by norm_num) (by norm_num)).2
    rw [show (Broker.init 10).cash = 10 from rfl, h0] at h
    have h2 := h (le_refl 0)
    rw [h2]
    norm_num [runLoop, Broker.total_value, Broker.init, Except.map]

/-! ## C3 -/

/-- C3: exit liquidation law.  At an exit transition (previous exposure
> 0, current exposure ≤ 0) with a positive price, if the pre-trade
position is positive the engine sells exactly that position — the
recorded trade's quantity equals the pre-trade position and the
post-trade position is 0 — and if the position is already ≤ 0 no trade
is attempted. -/
theorem exit_liquidation (b : Broker) (prev cur px : Rat)
    (rest : List (Rat × Rat))
    (hprev : 0 < prev) (hcur : cur ≤ 0) (hpx : 0 < px) :
    (0 < b.position →
      ∃ b1 : Broker,
        b.market_order "sell" b.position px = .ok b1
        ∧ b1.position = 0
        ∧ b1.cash = b.cash + b.position * px
        ∧ b1.trade_log = b.trade_log ++
            [⟨"sell", b.position, px, b1.cash, b1.position⟩]
        ∧ runLoop b prev ((px, cur) :: rest) =
            (runLoop b1 cur rest).map (fun r => (b1.total_value px :: r.1, r.2)))
    ∧ (b.position ≤ 0 →
        runLoop b prev ((px, cur) :: rest) =
          (runLoop b cur rest).map (fun r => (b.total_value px :: r.1, r.2))) := by
  have hnot : ¬ (prev ≤ 0 ∧ 0 < cur) := by
    intro h
    exact absurd hprev (not_lt.mpr h.1)
  constructor
  · intro hq
    refine ⟨_, market_order_sell_eq b b.position px hq hpx,
      by simp, by simp, by simp, ?_⟩
    simp only [runLoop, if_neg hnot, if_pos (And.intro hprev hcur), if_pos hq,
      market_order_sell_eq b b.position px hq hpx]
    cases runLoop ⟨b.cash + b.position * px, b.position - b.position,
        b.trade_log ++ [⟨"sell", b.position, px, b.cash + b.position * px,
          b.position - b.position⟩]⟩ cur rest with
    | error e => rfl
    | ok r => rfl
  · intro hq
    simp only [runLoop, if_neg hnot, if_pos (And.intro hprev hcur),
      if_neg (not_lt.mpr hq)]
    cases runLoop b cur rest with
    | error e => rfl
    | ok r => rfl

/-- C3 witness: holding 5 shares bought at 200, an exit at price 50
sells exactly 5 and leaves position 0. -/
theorem exit_liquidation_witness :
    ∃ b1 : Broker, (Broker.mk 0 5 []).market_order "sell" 5 50 = .ok b1
      ∧ b1.position = 0 ∧ b1.cash = 250 := by
  have h := (exit_liquidation (Broker.mk 0 5 []) 1 0 50 []
    (by norm_num) (le_refl 0) (by norm_num)).1 (by norm_num)
  obtain ⟨b1, hok, hpos, hcash, _, _⟩ := h
  exact ⟨b1, hok, hpos, by rw [hcash]; norm_num⟩

/-! ## Engine loop infrastructure -/

/-- The per-step broker update of `Backtester.run` (the body of the
`let step` in `runLoop`), named for reasoning. -/
def stepBroker (b : Broker) (prev cur px : Rat) : Except OrderError Broker :=
  if prev ≤ 0 ∧ 0 < cur then
    if 0 < ⌊b.cash / px⌋ then b.market_order "buy" ⌊b.cash / px⌋ px else .ok b
  else if 0 < prev ∧ cur ≤ 0 then
    if 0 < b.position then b.market_order "sell" b.position px else .ok b
  else .ok b

/-- Unfolding `runLoop` one step through `stepBroker`. -/
theorem runLoop_cons (b : Broker) (prev px cur : Rat) (rest : List (Rat × Rat)) :
    runLoop b prev ((px, cur) :: rest) =
      match stepBroker b prev cur px with
      | .error e => .error e
      | .ok b1 =>
        match runLoop b1 cur rest with
        | .error e => .error e
        | .ok (eqs, bf) => .ok (b1.total_value px :: eqs, bf) := rfl

/-- With a positive price the step never errors. -/
theorem stepBroker_isOk (b : Broker) (prev cur px : Rat) (hpx : 0 < px) :
    ∃ b1 : Broker, stepBroker b prev cur px = .ok b1 := by
  unfold stepBroker
  split
  · split
    · exact market_order_isOk _ _ _ _ (by assumption) hpx
    · exact ⟨b, rfl⟩
  · split
    · split
      · exact market_order_isOk _ _ _ _ (by assumption) hpx
      · exact ⟨b, rfl⟩
    · exact ⟨b, rfl⟩

/-- A broker state in which cash and position are non-negative and every
trade record snapshots non-negative cash and position. -/
def SolventState (b : Broker) : Prop :=
  0 ≤ b.cash ∧ 0 ≤ b.position
  ∧ ∀ tr ∈ b.trade_log, 0 ≤ tr.cash ∧ 0 ≤ tr.position

/-- The engine step preserves solvency at a positive price: the buy
quantity `⌊cash / px⌋` never costs more than the available cash, and a
sell liquidates exactly the (positive) position. -/
theorem stepBroker_solvent (b : Broker) (prev cur px : Rat) (hpx : 0 < px)
    (hb : SolventState b) (b1 : Broker)
    (h : stepBroker b prev cur px = .ok b1) : SolventState b1 := by
  obtain ⟨hc, hp, hl⟩ := hb
  unfold stepBroker at h
  split at h
  · split at h
    · rename_i hq
      rw [market_order_buy_eq b ⌊b.cash / px⌋ px hq hpx] at h
      obtain rfl : _ = b1 := by injection h
      have hfl : (⌊b.cash / px⌋ : Rat) ≤ b.cash / px := Int.floor_le _
      have hcash1 : (0 : Rat) ≤ b.cash - ⌊b.cash / px⌋ * px := by
        have := (mul_le_mul_right hpx).mpr hfl
        rw [div_mul_cancel₀ b.cash (ne_of_gt hpx)] at this
        linarith
      have hpos1 : (0 : Int) ≤ b.position + ⌊b.cash / px⌋ := by omega
      refine ⟨hcash1, by exact_mod_cast hpos1, ?_⟩
      intro tr htr
      rcases List.mem_append.mp htr with h1 | h1
      · exact hl tr h1
      · rcases List.mem_singleton.mp h1 with rfl
        exact ⟨hcash1, hpos1⟩
    · injection h with h
      exact ⟨h ▸ hc, h ▸ hp, h ▸ hl⟩
  · split at h
    · split at h
      · rename_i hq
        rw [market_order_sell_eq b b.position px hq hpx] at h
        obtain rfl : _ = b1 := by injection h
        have hcash1 : (0 : Rat) ≤ b.cash + b.position * px := by
          have : (0 : Rat) ≤ (b.position : Rat) * px :=
            mul_nonneg (by exact_mod_cast le_of_lt hq) (le_of_lt hpx)
          linarith
        refine ⟨hcash1, by simp, ?_⟩
        intro tr htr
        rcases List.mem_append.mp htr with h1 | h1
        · exact hl tr h1
        · rcases List.mem_singleton.mp h1 with rfl
          exact ⟨hcash1, by simp⟩
      · injection h with h
        exact ⟨h ▸ hc, h ▸ hp, h ▸ hl⟩
    · injection h with h
      exact ⟨h ▸ hc, h ▸ hp, h ▸ hl⟩

/-- With positive prices the loop always succeeds, produces one equity
point per input pair, and preserves solvency of the broker. -/
theorem runLoop_ok_solvent :
    ∀ (xs : List (Rat × Rat)) (b : Broker) (prev : Rat),
    (∀ x ∈ xs, 0 < x.1) →
    ∃ eqs bf, runLoop b prev xs = .ok (eqs, bf)
      ∧ eqs.length = xs.length
      ∧ (SolventState b → SolventState bf) := by
  intro xs
  induction xs with
  | nil => exact fun b prev _ => ⟨[], b, rfl, rfl, id⟩
  | cons hd tl ih =>
    intro b prev h
    obtain ⟨px, cur⟩ := hd
    have hpx : 0 < px := h (px, cur) (List.mem_cons_self _ _)
    have htl : ∀ x ∈ tl, 0 < x.1 := fun x hx => h x (List.mem_cons_of_mem _ hx)
    obtain ⟨b1, hb1⟩ := stepBroker_isOk b prev cur px hpx
    obtain ⟨eqs, bf, hrun, hlen, hsolv⟩ := ih b1 cur htl
    refine ⟨b1.total_value px :: eqs, bf, ?_, by simp [hlen], ?_⟩
    · rw [runLoop_cons]
      simp only [hb1, hrun]
    · exact fun hs => hsolv (stepBroker_solvent b prev cur px hpx hs b1 hb1)

/-! ## C4 -/

/-- Each clipped value lies in [0, 1]. -/
theorem clip01_mem (x : Rat) : 0 ≤ clip01 x ∧ clip01 x ≤ 1 := by
  unfold clip01
  exact ⟨le_max_left 0 _, max_le zero_le_one (min_le_left 1 x)⟩

/-- A shared concrete evaluation: a one-price run with the default
configuration produces a zero signal, no trade, and flat equity. -/
theorem run_single_100_eval :
    Backtester.run ⟨⟨20, 3/2, true, 1, true⟩, Broker.init 1000⟩ id [100] =
      .ok (⟨[1000], [0], []⟩, Broker.init 1000) := by
  norm_num [Backtester.run, VolatilityBreakoutStrategy.signals, runLoop,
    Broker.init, sigF, sigPre, clip01, Broker.total_value, List.ofFn_succ,
    List.length_cons]

/-- C4: clipping invariant.  For every input price sequence and every
configuration (whatever the generator's raw values, including the
negative ones emitted with longOnly = false), every value of the
exposure series returned by `Backtester.run` lies in [0, 1]; missing
generator values are filled with 0 before clipping (the embedded signal
series is total, so the fill is the identity here). -/
theorem exposure_clipped (bt : Backtester) (sqrtFn : Rat → Rat)
    (prices : List Rat) (r : RunResult) (bf : Broker)
    (h : bt.run sqrtFn prices = .ok (r, bf)) :
    ∀ x ∈ r.signals, 0 ≤ x ∧ x ≤ 1 := by
  unfold Backtester.run at h
  rcases hm : runLoop bt.broker 0
      (prices.zip ((bt.strategy.signals sqrtFn prices).map clip01)) with e | p
  · simp only [hm] at h
    exact Except.noConfusion h
  · obtain ⟨eqs, bf1⟩ := p
    simp only [hm] at h
    obtain ⟨h1, h2⟩ := Prod.mk.injEq .. ▸ Except.ok.injEq .. ▸ h
    subst h1
    intro x hx
    obtain ⟨y, _, rfl⟩ := List.mem_map.mp hx
    exact clip01_mem y

/-- C4 witness: the single returned exposure value of the concrete run,
0, lies in [0, 1]. -/
theorem exposure_clipped_witness : 0 ≤ (0 : Rat) ∧ (0 : Rat) ≤ 1 := by
  have h := exposure_clipped ⟨⟨20, 3/2, true, 1, true⟩, Broker.init 1000⟩ id
    [100] ⟨[1000], [0], []⟩ (Broker.init 1000) run_single_100_eval
  exact h 0 (by norm_num)

/-! ## C7 -/

/-- The signal series always has the length of the input. -/
theorem signals_length (s : VolatilityBreakoutStrategy) (sqrtFn : Rat → Rat)
    (prices : List Rat) :
    (s.signals sqrtFn prices).length = prices.length := by
  simp [VolatilityBreakoutStrategy.signals]

/-- C7: length invariant.  For every in-domain configuration and every
sequence of positive prices the run succeeds, and the equity and
exposure curves each have the length of the input; the empty input
yields empty equity, exposure and trade outputs with the broker left in
its initial state. -/
theorem length_invariant (s : VolatilityBreakoutStrategy)
    (hlb : 1 ≤ s.lookback) (sqrtFn : Rat → Rat) (cash : Rat)
    (prices : List Rat) (hpos : ∀ p ∈ prices, 0 < p) :
    ∃ r bf, Backtester.run ⟨s, Broker.init cash⟩ sqrtFn prices = .ok (r, bf)
      ∧ r.equity.length = prices.length
      ∧ r.signals.length = prices.length
      ∧ (prices = [] → r = ⟨[], [], []⟩ ∧ bf = Broker.init cash) := by
  rcases hp : prices with _ | ⟨p0, ptl⟩
  · exact ⟨⟨[], [], []⟩, Broker.init cash, rfl, rfl, rfl, fun _ => ⟨rfl, rfl⟩⟩
  · rw [← hp]
    have hsiglen : ((s.signals sqrtFn prices).map clip01).length = prices.length := by
      rw [List.length_map, signals_length]
    obtain ⟨eqs, bf, hrun, hlen, _⟩ := runLoop_ok_solvent
      (prices.zip ((s.signals sqrtFn prices).map clip01)) (Broker.init cash) 0
      (fun x hx => hpos x.1 (List.of_mem_zip hx).1)
    refine ⟨⟨eqs, (s.signals sqrtFn prices).map clip01, bf.trade_log⟩, bf,
      ?_, ?_, hsiglen, ?_⟩
    · unfold Backtester.run
      simp only [hrun]
    · rw [hlen, List.length_zip, hsiglen, min_self]
    · intro hempty
      rw [hp] at hempty
      exact absurd hempty (by simp)

/-- C7 witness: the two-price run succeeds (and hence has curves of
length two). -/
theorem length_invariant_witness :
    (Backtester.run ⟨⟨2, 3/2, true, 1, true⟩, Broker.init 1000⟩ id
      [100, 100]).isOk = true := by
  obtain ⟨r, bf, hrun, _⟩ := length_invariant ⟨2, 3/2, true, 1, true⟩
    (by norm_num) id 1000 [100, 100] (by norm_num)
  rw [hrun]
  rfl

/-! ## C9 -/

/-- C9: implicit engine solvency invariant.  Starting from non-negative
cash and zero position, a run over positive prices keeps the ledger
solvent at every step: the final cash and position are non-negative and
every trade record — the snapshot taken after each executed order, the
only points where the ledger changes — shows non-negative cash and
position. -/
theorem engine_solvency (s : VolatilityBreakoutStrategy) (sqrtFn : Rat → Rat)
    (cash : Rat) (hcash : 0 ≤ cash) (prices : List Rat)
    (hpos : ∀ p ∈ prices, 0 < p) (r : RunResult) (bf : Broker)
    (h : Backtester.run ⟨s, Broker.init cash⟩ sqrtFn prices = .ok (r, bf)) :
    SolventState bf ∧ ∀ tr ∈ r.trades, 0 ≤ tr.cash ∧ 0 ≤ tr.position := by
  obtain ⟨eqs, bf1, hrun, _, hsolv⟩ := runLoop_ok_solvent
    (prices.zip ((s.signals sqrtFn prices).map clip01)) (Broker.init cash) 0
    (fun x hx => hpos x.1 (List.of_mem_zip hx).1)
  unfold Backtester.run at h
  simp only [hrun] at h
  obtain ⟨h1, h2⟩ := Prod.mk.injEq .. ▸ Except.ok.injEq .. ▸ h
  have hinit : SolventState (Broker.init cash) :=
    ⟨hcash, le_refl 0, by simp [Broker.init]⟩
  have hbf1 : SolventState bf1 := hsolv hinit
  subst h2
  refine ⟨hbf1, ?_⟩
  rw [← h1]
  exact hbf1.2.2

/-- C9 witness: the concrete one-price run ends solvent. -/
theorem engine_solvency_witness : SolventState (Broker.init 1000) := by
  have h := engine_solvency ⟨20, 3/2, true, 1, true⟩ id 1000 (by norm_num)
    [100] (by norm_num) ⟨[1000], [0], []⟩ (Broker.init 1000) run_single_100_eval
  exact h.1

/-! ## C5 -/

/-- The pre-lag signal does not depend on the `lag_signal` field. -/
theorem sigPre_lag_irrel (sqrtFn : Rat → Rat) (lb : Int) (k : Rat)
    (hold lo : Bool) (L1 L2 : Int) (p : ℕ → Rat) (t : ℕ) :
    sigPre sqrtFn ⟨lb, k, hold, L1, lo⟩ p t =
      sigPre sqrtFn ⟨lb, k, hold, L2, lo⟩ p t := rfl

/-- C5: lag-shift law.  With the raw-signal configuration fixed, the
signal series produced with `lag_signal = L > 0` is the series produced
with `lag_signal = 0`, shifted forward by `L` positions with the first
`L` positions forced to 0 (and truncated to the input length). -/
theorem lag_shift (sqrtFn : Rat → Rat) (lb : Int) (hlb : 1 ≤ lb) (k : Rat)
    (hold lo : Bool) (L : Int) (hL : 0 < L) (prices : List Rat) :
    VolatilityBreakoutStrategy.signals ⟨lb, k, hold, L, lo⟩ sqrtFn prices =
      (List.replicate L.toNat 0 ++
        VolatilityBreakoutStrategy.signals ⟨lb, k, hold, 0, lo⟩ sqrtFn
          prices).take prices.length := by
  have hlen0 : (VolatilityBreakoutStrategy.signals ⟨lb, k, hold, 0, lo⟩ sqrtFn
      prices).length = prices.length := signals_length _ _ _
  apply List.ext_getElem
  · rw [signals_length, List.length_take, List.length_append,
      List.length_replicate, hlen0]
    omega
  · intro i h1 h2
    rw [List.getElem_take]
    simp only [VolatilityBreakoutStrategy.signals, List.getElem_ofFn]
    rw [signals_length] at h1
    by_cases hi : i < L.toNat
    · rw [List.getElem_append_left (by simpa using hi)]
      rw [List.getElem_replicate]
      unfold sigF
      rw [if_pos hL, if_pos (show (i : Int) < L by omega)]
    · rw [List.getElem_append_right (by simp only [List.length_replicate]; omega)]
      simp only [VolatilityBreakoutStrategy.signals, List.getElem_ofFn,
        List.length_replicate]
      unfold sigF
      rw [if_pos hL, if_neg (show ¬ (i : Int) < L by omega),
        if_neg (show ¬ (0 : Int) < 0 by omega)]
      exact sigPre_lag_irrel sqrtFn lb k hold lo L 0 _ _

/-- C5 witness: the law at a concrete configuration and price list. -/
theorem lag_shift_witness :
    VolatilityBreakoutStrategy.signals ⟨2, 0, true, 2, true⟩ id
        [100, 100, 100, 100, 200, 200, 50] =
      (List.replicate (2 : Int).toNat 0 ++
        VolatilityBreakoutStrategy.signals ⟨2, 0, true, 0, true⟩ id
          [100, 100, 100, 100, 200, 200, 50]).take 7 :=
  lag_shift id 2 (by norm_num) 0 true true 2 (by norm_num)
    [100, 100, 100, 100, 200, 200, 50]

/-! ## C10 -/

/-- The forward fill only ever produces values of the underlying
series. -/
theorem ffillNonzero_cases (r : ℕ → Rat) (P : Rat → Prop)
    (h : ∀ j, P (r j)) : ∀ t, P (ffillNonzero r t) := by
  intro t
  induction t with
  | zero => exact h 0
  | succ t ih =>
    unfold ffillNonzero
    split
    · exact ih
    · exact h (t + 1)

/-- The raw signal only takes the values −1, 0, 1. -/
theorem raw_cases (sqrtFn : Rat → Rat) (s : VolatilityBreakoutStrategy)
    (p : ℕ → Rat) (t : ℕ) :
    raw sqrtFn s p t = -1 ∨ raw sqrtFn s p t = 0 ∨ raw sqrtFn s p t = 1 := by
  unfold raw
  split
  · exact Or.inl rfl
  · split
    · exact Or.inr (Or.inr rfl)
    · exact Or.inr (Or.inl rfl)

/-- With `long_only` the −1 branch is disabled, so the raw signal is 0
or 1. -/
theorem raw_cases_long (sqrtFn : Rat → Rat) (s : VolatilityBreakoutStrategy)
    (p : ℕ → Rat) (t : ℕ) (h : s.long_only = true) :
    raw sqrtFn s p t = 0 ∨ raw sqrtFn s p t = 1 := by
  unfold raw
  simp only [h, Bool.not_true, Bool.false_and, Bool.false_eq_true, if_false]
  split
  · exact Or.inr rfl
  · exact Or.inl rfl

/-- Every value of the full signal pipeline is 0 or a raw-signal
value. -/
theorem sigF_cases (sqrtFn : Rat → Rat) (s : VolatilityBreakoutStrategy)
    (p : ℕ → Rat) (t : ℕ) (P : Rat → Prop) (hP0 : P 0)
    (hPraw : ∀ u, P (raw sqrtFn s p u)) : P (sigF sqrtFn s p t) := by
  have hpre : ∀ u, P (sigPre sqrtFn s p u) := by
    intro u
    unfold sigPre
    split
    · exact ffillNonzero_cases _ P hPraw u
    · exact hPraw u
  unfold sigF
  split
  · split
    · exact hP0
    · exact hpre _
  · exact hpre t

/-- C10: implicit signal-range invariant.  Every value returned by
`signals` is −1, 0 or 1 — never a fractional exposure — and with
`long_only = true` every value is 0 or 1, in both hold modes and for
every lag. -/
theorem signal_range (s : VolatilityBreakoutStrategy) (hlb : 1 ≤ s.lookback)
    (sqrtFn : Rat → Rat) (prices : List Rat) (x : Rat)
    (hx : x ∈ s.signals sqrtFn prices) :
    (x = -1 ∨ x = 0 ∨ x = 1)
    ∧ (s.long_only = true → x = 0 ∨ x = 1) := by
  simp only [VolatilityBreakoutStrategy.signals, List.mem_ofFn] at hx
  obtain ⟨i, rfl⟩ := hx
  constructor
  · exact sigF_cases _ _ _ _ (fun y => y = -1 ∨ y = 0 ∨ y = 1)
      (Or.inr (Or.inl rfl)) (fun u => raw_cases _ _ _ u)
  · intro hlo
    exact sigF_cases _ _ _ _ (fun y => y = 0 ∨ y = 1)
      (Or.inl rfl) (fun u => raw_cases_long _ _ _ u hlo)

/-- C10 witness: the value 0, produced by the concrete one-price call,
satisfies both range statements. -/
theorem signal_range_witness :
    ((0 : Rat) = -1 ∨ (0 : Rat) = 0 ∨ (0 : Rat) = 1)
    ∧ ((⟨20, 3/2, true, 1, true⟩ :
        VolatilityBreakoutStrategy).long_only = true →
      (0 : Rat) = 0 ∨ (0 : Rat) = 1) := by
  apply signal_range ⟨20, 3/2, true, 1, true⟩ (by norm_num) id [100] 0
  norm_num [VolatilityBreakoutStrategy.signals, sigF, List.ofFn_succ]

/-! ## C6 -/

/-- The sample standard deviation of an all-zero sample, where defined,
is `sqrt 0 = 0`. -/
theorem sampleStd_zero_of_const (sqrtFn : Rat → Rat) (hs : sqrtFn 0 = 0)
    (xs : List Rat) (hx : ∀ x ∈ xs, x = 0) (v : Rat)
    (h : sampleStd sqrtFn xs = some v) : v = 0 := by
  unfold sampleStd at h
  split at h
  · exact Option.noConfusion h
  · have hsum : xs.sum = 0 := List.sum_eq_zero hx
    have hmap : (xs.map
        (fun x => (x - xs.sum / (xs.length : Rat)) ^ 2)).sum = 0 := by
      apply List.sum_eq_zero
      intro y hy
      obtain ⟨x, hxm, rfl⟩ := List.mem_map.mp hy
      rw [hx x hxm, hsum]
      norm_num
    rw [hmap, zero_div, hs] at h
    exact (Option.some.inj h).symm

/-- On a constant positive price path the simple return is 0 wherever
it is defined inside the path. -/
theorem pctChange_const (c : Rat) (hc : c ≠ 0) (n : ℕ) (p : ℕ → Rat)
    (hp : ∀ j < n, p j = c) (t : ℕ) (ht : 0 < t) (htn : t < n) :
    pctChange p t = some 0 := by
  unfold pctChange
  rw [if_neg (by omega), hp t htn, hp (t - 1) (by omega), div_self hc]
  norm_num

/-- On a constant non-zero price path, the rolling volatility is 0
wherever it is defined inside the path. -/
theorem vol_const_eq_zero (sqrtFn : Rat → Rat) (hs : sqrtFn 0 = 0)
    (s : VolatilityBreakoutStrategy) (c : Rat) (hc : c ≠ 0) (n : ℕ)
    (p : ℕ → Rat) (hp : ∀ j < n, p j = c) (t : ℕ) (htn : t < n) (v : Rat)
    (hv : vol sqrtFn s p t = some v) : v = 0 := by
  unfold vol at hv
  split at hv
  · exact Option.noConfusion hv
  · rename_i ht0
    unfold rollingStd at hv
    split at hv
    · rename_i hw
      simp only [] at hv
      split at hv
      · rename_i hall
        apply sampleStd_zero_of_const sqrtFn hs _ ?_ v hv
        intro x hxm
        obtain ⟨o, hom, rfl⟩ := List.mem_map.mp hxm
        obtain ⟨j, hj, rfl⟩ := List.mem_map.mp hom
        have hjw : j < s.lookback.toNat := List.mem_range.mp hj
        have hsome : (pctChange p (t - 1 + 1 - s.lookback.toNat + j)).isSome :=
          List.all_eq_true.mp hall _ (List.mem_map.mpr ⟨j, hj, rfl⟩)
        set u := t - 1 + 1 - s.lookback.toNat + j with hu
        have hu0 : 0 < u := by
          by_contra h0
          have : u = 0 := by omega
          rw [this] at hsome
          simp [pctChange] at hsome
        have hun : u < n := by omega
        rw [pctChange_const c hc n p hp u hu0 hun]
        rfl
      · exact Option.noConfusion hv
    · exact Option.noConfusion hv

/-- On a constant positive price path the raw signal is 0 everywhere
inside the path. -/
theorem raw_const_zero (sqrtFn : Rat → Rat) (hs : sqrtFn 0 = 0)
    (s : VolatilityBreakoutStrategy) (c : Rat) (hc : 0 < c) (n : ℕ)
    (p : ℕ → Rat) (hp : ∀ j < n, p j = c) (t : ℕ) (ht : t < n) :
    raw sqrtFn s p t = 0 := by
  have hband : ∀ pc v, prevClose p t = some pc → vol sqrtFn s p t = some v →
      pc = c ∧ v = 0 := by
    intro pc v hpc hv
    constructor
    · unfold prevClose at hpc
      split at hpc
      · exact Option.noConfusion hpc
      · rename_i ht0
        rw [← Option.some.inj hpc, hp (t - 1) (by omega)]
    · exact vol_const_eq_zero sqrtFn hs s c (ne_of_gt hc) n p hp t ht v hv
  have h1 : ltOpt (p t) (dnBand sqrtFn s p t) = false := by
    unfold dnBand
    cases hpc : prevClose p t with
    | none => rfl
    | some pc =>
      cases hv : vol sqrtFn s p t with
      | none => rfl
      | some v =>
        obtain ⟨hpc0, hv0⟩ := hband pc v hpc hv
        unfold ltOpt
        rw [hpc0, hv0, hp t ht]
        norm_num
  have h2 : gtOpt (p t) (upBand sqrtFn s p t) = false := by
    unfold upBand
    cases hpc : prevClose p t with
    | none => rfl
    | some pc =>
      cases hv : vol sqrtFn s p t with
      | none => rfl
      | some v =>
        obtain ⟨hpc0, hv0⟩ := hband pc v hpc hv
        unfold gtOpt
        rw [hpc0, hv0, hp t ht]
        norm_num
  unfold raw
  rw [h1, h2]
  simp

/-- Forward-filling an everywhere-zero prefix gives 0. -/
theorem ffillNonzero_zero (r : ℕ → Rat) (t : ℕ) (h : ∀ j ≤ t, r j = 0) :
    ffillNonzero r t = 0 := by
  induction t with
  | zero => exact h 0 (le_refl 0)
  | succ t ih =>
    unfold ffillNonzero
    rw [if_pos (h (t + 1) (le_refl _))]
    exact ih (fun j hj => h j (le_trans hj (Nat.le_succ t)))

/-- On a constant positive price path the full signal pipeline emits 0
at every index inside the path. -/
theorem sigF_const_zero (sqrtFn : Rat → Rat) (hs : sqrtFn 0 = 0)
    (s : VolatilityBreakoutStrategy) (c : Rat) (hc : 0 < c) (n : ℕ)
    (p : ℕ → Rat) (hp : ∀ j < n, p j = c) (t : ℕ) (ht : t < n) :
    sigF sqrtFn s p t = 0 := by
  have hsp : ∀ u, u < n → sigPre sqrtFn s p u = 0 := by
    intro u hu
    unfold sigPre
    split
    · exact ffillNonzero_zero _ _ (fun j hj =>
        raw_const_zero sqrtFn hs s c hc n p hp j (lt_of_le_of_lt hj hu))
    · exact raw_const_zero sqrtFn hs s c hc n p hp u hu
  unfold sigF
  split
  · split
    · rfl
    · exact hsp _ (lt_of_le_of_lt (Nat.sub_le t _) ht)
  · exact hsp t ht

/-- On a constant positive price list the signal series is all zeros. -/
theorem signals_const_zero (sqrtFn : Rat → Rat) (hs : sqrtFn 0 = 0)
    (s : VolatilityBreakoutStrategy) (c : Rat) (hc : 0 < c) (n : ℕ) :
    s.signals sqrtFn (List.replicate n c) = List.replicate n 0 := by
  have hp : ∀ j < n, (List.replicate n c).getD j 0 = c := by
    intro j hj
    rw [List.getD_eq_getElem?_getD, List.getElem?_replicate, if_pos hj]
    rfl
  apply List.ext_getElem
  · rw [signals_length, List.length_replicate, List.length_replicate]
  · intro i h1 h2
    simp only [VolatilityBreakoutStrategy.signals, List.getElem_ofFn,
      List.getElem_replicate]
    rw [signals_length, List.length_replicate] at h1
    exact sigF_const_zero sqrtFn hs s c hc n _ hp i h1

/-- With all signals 0 and a non-positive previous signal the loop never
trades: it returns the mark-to-market equity and the unchanged broker. -/
theorem runLoop_zeros (b : Broker) :
    ∀ (xs : List (Rat × Rat)) (prev : Rat), prev ≤ 0 →
    (∀ x ∈ xs, x.2 = 0) →
    runLoop b prev xs = .ok (xs.map (fun x => b.total_value x.1), b) := by
  intro xs
  induction xs with
  | nil => intro prev _ _; rfl
  | cons hd tl ih =>
    intro prev hprev hz
    obtain ⟨px, cur⟩ := hd
    have hcur : cur = 0 := hz (px, cur) (List.mem_cons_self _ _)
    have hstep : stepBroker b prev cur px = .ok b := by
      unfold stepBroker
      rw [if_neg, if_neg]
      · rintro ⟨h1, h2⟩
        rw [hcur] at h2
        exact absurd hprev (not_le.mpr h1)
      · rintro ⟨h1, h2⟩
        rw [hcur] at h2
        exact absurd h2 (by norm_num)
    rw [runLoop_cons]
    simp only [hstep,
      ih cur (by rw [hcur]) (fun x hx => hz x (List.mem_cons_of_mem _ hx)),
      List.map_cons]

/-- C6: constant-price idempotence.  On a constant positive price
sequence of length at least `lookback + 1`, the rolling volatility is 0
wherever it is defined, the raw signal is 0 at every step, and the run
executes no trades and returns an equity curve flat at the initial cash
(`sqrt 0 = 0` is assumed of the abstracted square root). -/
theorem constant_price_flat (sqrtFn : Rat → Rat) (hs : sqrtFn 0 = 0)
    (lb : Int) (hlb : 1 ≤ lb) (k : Rat) (hold lo : Bool) (lag : Int)
    (cash c : Rat) (hc : 0 < c) (n : ℕ) (hn : lb.toNat + 1 ≤ n) :
    (∀ t < n, ∀ v,
      vol sqrtFn ⟨lb, k, hold, lag, lo⟩
        (fun j => (List.replicate n c).getD j 0) t = some v → v = 0)
    ∧ (∀ t < n, raw sqrtFn ⟨lb, k, hold, lag, lo⟩
        (fun j => (List.replicate n c).getD j 0) t = 0)
    ∧ Backtester.run ⟨⟨lb, k, hold, lag, lo⟩, Broker.init cash⟩ sqrtFn
        (List.replicate n c) =
      .ok (⟨List.replicate n cash, List.replicate n 0, []⟩,
        Broker.init cash) := by
  have hp : ∀ j < n, (List.replicate n c).getD j 0 = c := by
    intro j hj
    rw [List.getD_eq_getElem?_getD, List.getElem?_replicate, if_pos hj]
    rfl
  refine ⟨?_, ?_, ?_⟩
  · intro t ht v hv
    exact vol_const_eq_zero sqrtFn hs _ c (ne_of_gt hc) n _ hp t ht v hv
  · intro t ht
    exact raw_const_zero sqrtFn hs _ c hc n _ hp t ht
  · have hsig := signals_const_zero sqrtFn hs ⟨lb, k, hold, lag, lo⟩ c hc n
    unfold Backtester.run
    simp only [hsig]
    have hclip : clip01 0 = 0 := by norm_num [clip01]
    rw [List.map_replicate, hclip]
    have hzeros : ∀ x ∈ (List.replicate n c).zip (List.replicate n (0 : Rat)),
        x.2 = 0 := by
      intro x hx
      exact List.eq_of_mem_replicate (List.of_mem_zip hx).2
    rw [runLoop_zeros (Broker.init cash) _ 0 (le_refl 0) hzeros]
    have hmap : ((List.replicate n c).zip (List.replicate n (0 : Rat))).map
        (fun x => (Broker.init cash).total_value x.1) = List.replicate n cash := by
      rw [List.eq_replicate_iff]
      constructor
      · rw [List.length_map, List.length_zip, List.length_replicate,
          List.length_replicate, min_self]
      · intro b hb
        obtain ⟨x, _, rfl⟩ := List.mem_map.mp hb
        norm_num [Broker.total_value, Broker.init]
    rw [hmap]
    rfl

/-- C6 witness: three equal prices of 100 with lookback 2 yield a run
with no trades and equity flat at the initial cash of 1000. -/
theorem constant_price_flat_witness :
    Backtester.run ⟨⟨2, 3/2, true, 1, true⟩, Broker.init 1000⟩ id
        (List.replicate 3 100) =
      .ok (⟨List.replicate 3 1000, List.replicate 3 0, []⟩,
        Broker.init 1000) :=
  (constant_price_flat id rfl 2 (by norm_num) (3/2) true true 1 1000 100
    (by norm_num) 3 (by decide)).2.2
